import Mathlib

/-!
Verification of the foldhash benchmark aggregation pipeline.

The pipeline has two stages:
* the Extractor (`tools/extract-bench-results.py`): per configuration, computes a
  robust per-iteration latency estimate from `(time, iters)` samples, splits the
  `function_id` label and prints one CSV row;
* the Aggregator (`tools/format-bench-results.py`): renames hash labels, rescales
  `setbuild` latencies, inner-joins against three ordering tables, sorts, pivots,
  and computes per-hash average-rank and geometric-mean summaries.

Timing values are modelled as rationals (reals for the log/exp summary),
Python strings as `String` or `List Char`, and fallible operations
(list indexing, the pivot) as `Option`.
-/

namespace Foldhash

/-! ### Extractor: `tools/extract-bench-results.py` -/

/-- Per-iteration latencies, `[t / n for t, n in zip(samples["times"], samples["iters"])]`. -/
def latencies (times iters : List ℚ) : List ℚ :=
  List.zipWith (fun t n => t / n) times iters

/-- Embeds `sorted(...)` applied to the latencies: an ascending stable sort. -/
def sample_times (times iters : List ℚ) : List ℚ :=
  (latencies times iters).insertionSort (· ≤ ·)

/-- Embeds `sample_times[len(sample_times) // 10]`.  Python raises `IndexError` on an
out-of-range index, modelled by `none`. -/
def robust (times iters : List ℚ) : Option ℚ :=
  (sample_times times iters)[(sample_times times iters).length / 10]?

/-- Splits off everything before the first occurrence of `sep`:
`some (pre, post)` with `s = pre ++ sep :: post` and `sep ∉ pre`, or `none`
when `sep` does not occur. -/
def splitFirst (sep : Char) : List Char → Option (List Char × List Char)
  | [] => none
  | c :: cs =>
    if c = sep then some ([], cs)
    else (splitFirst sep cs).map (fun p => (c :: p.1, p.2))

/-- Embeds Python `s.split(sep, maxsplit)` on a list of characters: cut at the
leftmost separator at most `maxsplit` times, keeping empty segments. -/
def pysplit (sep : Char) : Nat → List Char → List (List Char)
  | 0, s => [s]
  | m + 1, s =>
    match splitFirst sep s with
    | none => [s]
    | some (pre, post) => pre :: pysplit sep m post

/-- Embeds Python `sep.join(parts)` for a one-character separator. -/
def joinSep (sep : Char) : List (List Char) → List Char
  | [] => []
  | [p] => p
  | p :: q :: rest => p ++ sep :: joinSep sep (q :: rest)

/-- The row printed for one configuration,
`",".join(name.split("-", 2)) + "," + str(robust)`, with the decimal rendering
of the robust estimate abstracted as the character list `ns`. -/
def emitLine (name ns : List Char) : List Char :=
  joinSep ',' (pysplit '-' 2 name) ++ ',' :: ns

/-- Number of comma-separated fields of a CSV row. -/
def commaFields (row : List Char) : Nat := row.count ',' + 1

/-- One configuration's extracted record: the split label fields together with the
robust estimate.  `none` when indexing inside `robust` raises, in which case the
`print` of the row is never reached. -/
def extractRecord (name : List Char) (times iters : List ℚ) :
    Option (List (List Char) × ℚ) :=
  (robust times iters).map (fun r => (pysplit '-' 2 name, r))

/-! ### Aggregator: `tools/format-bench-results.py` -/

def MAP_SIZE : ℕ := 1000

def SET_BUILD_FACTOR : ℕ := 10 * MAP_SIZE

def distr_order : List String :=
  ["u32", "u32pair", "u64", "u64lobits", "u64hibits", "u64pair",
   "ipv4", "ipv6", "rgba", "strenglishword", "struuid", "strurl",
   "strdate", "accesslog", "kilobyte", "tenkilobyte"]

def bench_order : List String := ["hashonly", "lookupmiss", "lookuphit", "setbuild"]

def hash_order : List String := ["foldhash-f", "foldhash-q", "fxhash", "ahash", "siphash"]

/-- Embeds `pl.col.hash.replace(name_repl)`: values that are keys of the mapping
are replaced, all others pass through unchanged. -/
def name_repl (h : String) : String :=
  if h = "foldhash-fast" then "foldhash-f"
  else if h = "foldhash-quality" then "foldhash-q"
  else h

/-- One row of the CSV record stream, header `bench,distr,hash,ns`. -/
structure Row where
  bench : String
  distr : String
  hash : String
  ns : ℚ
deriving DecidableEq

/-- Embeds the column expression
`pl.col.ns / pl.when(pl.col.bench == "setbuild").then(SET_BUILD_FACTOR).otherwise(1)`. -/
def rescale_ns (bench : String) (ns : ℚ) : ℚ :=
  ns / (if bench = "setbuild" then (SET_BUILD_FACTOR : ℚ) else 1)

/-- The two `with_columns` steps applied to one row: rename the hash label,
then rescale `ns` by the bench-dependent divisor. -/
def normalize (r : Row) : Row :=
  { r with hash := name_repl r.hash, ns := rescale_ns r.bench r.ns }

/-- Embeds the three `.join(..., on=...)` calls against the ordering tables.
Each table's key column lists distinct names, so the (inner) joins keep exactly
the rows whose three label fields all appear in their tables; the attached
`*_order_idx` columns are dropped again by the final `select`. -/
def joinOrders (rows : List Row) : List Row :=
  rows.filter (fun r =>
    decide (r.distr ∈ distr_order) && decide (r.bench ∈ bench_order) &&
      decide (r.hash ∈ hash_order))

/-- Position of a label in its ordering table, the `*_order_idx` value attached
by the corresponding join. -/
def orderIdx (table : List String) (s : String) : ℕ := table.indexOf s

/-- The lexicographic comparison realised by
`.sort(["distr_order_idx", "distr", "bench_order_idx", "hash_order_idx"])`. -/
def rowLE (a b : Row) : Bool :=
  if orderIdx distr_order a.distr ≠ orderIdx distr_order b.distr then
    decide (orderIdx distr_order a.distr < orderIdx distr_order b.distr)
  else if a.distr ≠ b.distr then decide (a.distr < b.distr)
  else if orderIdx bench_order a.bench ≠ orderIdx bench_order b.bench then
    decide (orderIdx bench_order a.bench < orderIdx bench_order b.bench)
  else decide (orderIdx hash_order a.hash ≤ orderIdx hash_order b.hash)

/-- The collected dataframe `df`: normalization, the three joins, and the sort. -/
def reportRows (rows : List Row) : List Row :=
  (joinOrders (rows.map normalize)).insertionSort (fun a b => rowLE a b = true)

/-- The `(distr, bench, hash)` combinations of the pivot: `distr, bench` are the
implicit index columns (all columns not named by `on`/`values`), `hash` the `on`
column. -/
def pivotKeys (rows : List Row) : List (String × String × String) :=
  rows.map (fun r => (r.distr, r.bench, r.hash))

/-- The reshaped table produced by a successful pivot: one entry per distinct
`(distr, bench)` index key, carrying that group's `(hash, ns)` cells. -/
def pivotTable (rows : List Row) : List ((String × String) × List (String × ℚ)) :=
  ((rows.map (fun r => (r.distr, r.bench))).dedup).map
    (fun k =>
      (k, (rows.filter (fun r => decide (r.distr = k.1) && decide (r.bench = k.2))).map
        (fun r => (r.hash, r.ns))))

/-- Embeds `df.pivot("hash", values="ns")`.  polars' `aggregate_function`
defaults to `None`: when several rows map to the same `(index, on)` cell the
pivot raises `ComputeError` instead of aggregating, modelled by `none`. -/
def pivot (rows : List Row) : Option (List ((String × String) × List (String × ℚ))) :=
  if (pivotKeys rows).Nodup then some (pivotTable rows) else none

/-- Embeds polars `rank()` with the default "average" method: the rank of value
`v` within column `xs` is the mean of the ordinal ranks of its tied block. -/
def rankAvg (v : ℚ) (xs : List ℚ) : ℚ :=
  (xs.countP (fun x => decide (x < v)) : ℚ) +
    ((xs.countP (fun x => decide (x = v)) : ℚ) + 1) / 2

/-- The window of `r` under `.over("distr", "bench")`: all rows sharing `r`'s
`(distr, bench)` key. -/
def windowOf (df : List Row) (r : Row) : List Row :=
  df.filter (fun s => decide (s.distr = r.distr) && decide (s.bench = r.bench))

/-- Embeds `rank = pl.col.ns.rank().over("distr", "bench")` for one row. -/
def rankOver (df : List Row) (r : Row) : ℚ :=
  rankAvg r.ns ((windowOf df r).map Row.ns)

/-- The rows of one `group_by("hash")` group. -/
def hashRows (df : List Row) (h : String) : List Row :=
  df.filter (fun r => decide (r.hash = h))

/-- Embeds `avg_rank = pl.col.rank.mean()` within `group_by("hash")`. -/
def avg_rank (df : List Row) (h : String) : ℚ :=
  ((hashRows df h).map (rankOver df)).sum / ((hashRows df h).length : ℚ)

/-- Embeds `geometric_mean = pl.col.ns.log().mean().exp()` within
`group_by("hash")`, over that hash's `ns` values, modelled on the reals. -/
noncomputable def geometric_mean (xs : List ℝ) : ℝ :=
  Real.exp ((xs.map Real.log).sum / ((xs.map Real.log).length : ℝ))

/-! ### Concrete inputs used to instantiate the theorems -/

/-- A `times` column whose per-iteration latencies are `1, …, 100`. -/
def times100 : List ℚ :=
  [1,2,3,4,5,6,7,8,9,10,11,12,13,14,15,16,17,18,19,20,
   21,22,23,24,25,26,27,28,29,30,31,32,33,34,35,36,37,38,39,40,
   41,42,43,44,45,46,47,48,49,50,51,52,53,54,55,56,57,58,59,60,
   61,62,63,64,65,66,67,68,69,70,71,72,73,74,75,76,77,78,79,80,
   81,82,83,84,85,86,87,88,89,90,91,92,93,94,95,96,97,98,99,100]

/-- The matching `iters` column: one iteration per batch. -/
def iters100 : List ℚ := List.replicate 100 1

/-- A two-hash, one-group dataframe used to instantiate the rank statistics. -/
def dfPair : List Row :=
  [⟨"hashonly", "u32", "ahash", 1⟩, ⟨"hashonly", "u32", "siphash", 2⟩]

/-! ### Helper lemmas about the Extractor -/

lemma latencies_eq_map_zip (times iters : List ℚ) :
    latencies times iters = (times.zip iters).map (fun p => p.1 / p.2) := by
  induction times generalizing iters with
  | nil => simp [latencies]
  | cons t ts ih =>
    cases iters with
    | nil => simp [latencies]
    | cons n ns => simpa [latencies, List.zip_cons_cons] using ih ns

lemma sample_times_sorted (times iters : List ℚ) :
    (sample_times times iters).Sorted (· ≤ ·) :=
  List.sorted_insertionSort _ _

lemma sample_times_perm (times iters : List ℚ) :
    (sample_times times iters).Perm (latencies times iters) :=
  List.perm_insertionSort _ _

/-- Any sorted permutation of the latencies is the sorted sample list. -/
lemma eq_sample_times_of_sorted (times iters : List ℚ) (l : List ℚ)
    (hp : l.Perm (latencies times iters)) (hs : l.Sorted (· ≤ ·)) :
    l = sample_times times iters :=
  List.eq_of_perm_of_sorted (hp.trans (sample_times_perm times iters).symm) hs
    (sample_times_sorted times iters)

/-- The robust estimate only depends on the multiset of `(time, iters)` pairs. -/
lemma robust_congr_perm (times iters times' iters' : List ℚ)
    (hperm : (times'.zip iters').Perm (times.zip iters)) :
    robust times' iters' = robust times iters := by
  have hlat : (latencies times' iters').Perm (latencies times iters) := by
    rw [latencies_eq_map_zip, latencies_eq_map_zip]
    exact hperm.map _
  have hst : sample_times times' iters' = sample_times times iters :=
    eq_sample_times_of_sorted times iters _
      ((sample_times_perm times' iters').trans hlat) (sample_times_sorted times' iters')
  rw [robust, robust, hst]

lemma zipWith_div_replicate_one (l : List ℚ) :
    List.zipWith (fun t n => t / n) l (List.replicate l.length 1) = l := by
  induction l with
  | nil => rfl
  | cons x xs ih => simp [List.replicate, ih]

/-- Concrete evaluation: latencies `1, …, 100` give robust estimate `11`. -/
lemma robust_times100_eq : robust times100 iters100 = some 11 := by
  have hlat : latencies times100 iters100 = times100 := by
    have := zipWith_div_replicate_one times100
    simpa [latencies, iters100] using this
  have hsorted : times100.Sorted (· ≤ ·) := by decide
  have hst : sample_times times100 iters100 = times100 := by
    rw [sample_times, hlat]
    exact hsorted.insertionSort_eq
  rw [robust, hst]
  rfl

/-! ### Claim theorems about the Extractor's robust estimate -/

/-- **C1.** For `n ≥ 1` sample pairs, the robust estimate exists, equals the entry
at 0-indexed position `⌊n/10⌋` of the per-iteration latencies sorted ascending
(characterised as any sorted permutation of the latencies), and is unchanged
under any permutation of the input pairs. -/
theorem robust_is_sorted_percentile (times iters : List ℚ)
    (hn : 1 ≤ (latencies times iters).length) :
    (∃ r, robust times iters = some r) ∧
    (∀ l : List ℚ, l.Perm (latencies times iters) → l.Sorted (· ≤ ·) →
      robust times iters = l[l.length / 10]?) ∧
    (∀ times' iters' : List ℚ, (times'.zip iters').Perm (times.zip iters) →
      robust times' iters' = robust times iters) := by
  have hlen : (sample_times times iters).length = (latencies times iters).length :=
    (sample_times_perm times iters).length_eq
  have hidx : (sample_times times iters).length / 10 < (sample_times times iters).length := by
    rw [hlen]
    exact Nat.div_lt_self (by omega) (by omega)
  have hex : ∃ r, robust times iters = some r := by
    rw [robust]
    exact ⟨_, List.getElem?_eq_getElem hidx⟩
  refine ⟨hex, ?_, ?_⟩
  · intro l hp hs
    rw [robust, eq_sample_times_of_sorted times iters l hp hs]
  · intro times' iters' hperm
    exact robust_congr_perm times iters times' iters' hperm

/-- Witness for `robust_is_sorted_percentile` at a single concrete sample pair. -/
theorem robust_is_sorted_percentile_witness :
    (∃ r, robust [(10 : ℚ)] [(2 : ℚ)] = some r) ∧
    (∀ l : List ℚ, l.Perm (latencies [(10 : ℚ)] [(2 : ℚ)]) → l.Sorted (· ≤ ·) →
      robust [(10 : ℚ)] [(2 : ℚ)] = l[l.length / 10]?) ∧
    (∀ times' iters' : List ℚ,
      (times'.zip iters').Perm (([(10 : ℚ)]).zip [(2 : ℚ)]) →
      robust times' iters' = robust [(10 : ℚ)] [(2 : ℚ)]) :=
  robust_is_sorted_percentile [10] [2] (by decide)

/-- **C3 (counterexample).** With per-iteration latencies `1, …, 100`, the robust
estimate is not `10`. -/
theorem robust_1_to_100_ne_ten : ¬ robust times100 iters100 = some 10 := by
  rw [robust_times100_eq]
  intro h
  have : (11 : ℚ) = 10 := Option.some.inj h
  norm_num at this

/-- **C3 (amended).** For any ordering of sample pairs whose per-iteration
latencies are `1, …, 100`, the robust estimate is `11` (the entry at index
`⌊100/10⌋ = 10`), not `10`. -/
theorem robust_1_to_100_eq_eleven (times' iters' : List ℚ)
    (hperm : (times'.zip iters').Perm (times100.zip iters100)) :
    robust times' iters' = some 11 := by
  rw [robust_congr_perm times100 iters100 times' iters' hperm]
  exact robust_times100_eq

/-- Witness for `robust_1_to_100_eq_eleven` at the identity ordering. -/
theorem robust_1_to_100_eq_eleven_witness : robust times100 iters100 = some 11 :=
  robust_1_to_100_eq_eleven times100 iters100 (List.Perm.refl _)

/-- **C9.** On an empty sample set the indexing inside the robust estimate fails:
no estimate and no record is produced for that configuration. -/
theorem empty_sample_is_fatal (name : List Char) (times iters : List ℚ)
    (h : latencies times iters = []) :
    robust times iters = none ∧ extractRecord name times iters = none := by
  have hst : sample_times times iters = [] := by
    rw [sample_times, h]
    rfl
  have hr : robust times iters = none := by
    rw [robust, hst]
    rfl
  exact ⟨hr, by rw [extractRecord, hr]; rfl⟩

/-- Witness for `empty_sample_is_fatal` on the empty sample set. -/
theorem empty_sample_is_fatal_witness :
    robust ([] : List ℚ) ([] : List ℚ) = none ∧
    extractRecord [] ([] : List ℚ) ([] : List ℚ) = none :=
  empty_sample_is_fatal [] [] [] rfl

/-! ### Helper lemmas about splitting and joining -/

lemma splitFirst_eq_none_iff (sep : Char) (s : List Char) :
    splitFirst sep s = none ↔ sep ∉ s := by
  induction s with
  | nil => simp [splitFirst]
  | cons c cs ih =>
    by_cases hc : c = sep
    · subst hc
      simp [splitFirst]
    · cases hsf : splitFirst sep cs with
      | none =>
        have hcs : sep ∉ cs := ih.mp hsf
        simp only [splitFirst, if_neg hc, hsf, Option.map_none', List.mem_cons, true_iff]
        rintro (h | h)
        · exact hc h.symm
        · exact hcs h
      | some p =>
        have hcs : sep ∈ cs := by
          by_contra hmem
          rw [ih.mpr hmem] at hsf
          exact Option.noConfusion hsf
        simp [splitFirst, if_neg hc, hsf, List.mem_cons, hcs]

lemma splitFirst_append (sep : Char) (pre post : List Char) (h : sep ∉ pre) :
    splitFirst sep (pre ++ sep :: post) = some (pre, post) := by
  induction pre with
  | nil => simp [splitFirst]
  | cons c cs ih =>
    have hc : c ≠ sep := by
      intro hc
      exact h (hc ▸ List.mem_cons_self c cs)
    have hcs : sep ∉ cs := fun hm => h (List.mem_cons_of_mem c hm)
    simp [splitFirst, if_neg hc, ih hcs]

lemma splitFirst_eq_some (sep : Char) :
    ∀ s pre post : List Char, splitFirst sep s = some (pre, post) →
      s = pre ++ sep :: post ∧ sep ∉ pre := by
  intro s
  induction s with
  | nil =>
    intro pre post h
    exact absurd h (by simp [splitFirst])
  | cons c cs ih =>
    intro pre post h
    by_cases hc : c = sep
    · subst hc
      rw [splitFirst, if_pos rfl] at h
      have h' := Option.some.inj h
      have hpre : pre = [] := (congrArg Prod.fst h').symm
      have hpost : post = cs := (congrArg Prod.snd h').symm
      subst hpre; subst hpost
      exact ⟨rfl, by simp⟩
    · rw [splitFirst, if_neg hc] at h
      cases hsf : splitFirst sep cs with
      | none =>
        rw [hsf] at h
        exact absurd h (by simp)
      | some p =>
        rw [hsf, Option.map_some'] at h
        have h' := Option.some.inj h
        have hpre : pre = c :: p.1 := (congrArg Prod.fst h').symm
        have hpost : post = p.2 := (congrArg Prod.snd h').symm
        subst hpre; subst hpost
        obtain ⟨hs, hnm⟩ := ih p.1 p.2 hsf
        refine ⟨by rw [hs]; rfl, ?_⟩
        intro hmem
        rcases List.mem_cons.mp hmem with hm | hm
        · exact hc hm.symm
        · exact hnm hm

lemma pysplit_of_not_mem (sep : Char) (m : Nat) (s : List Char) (h : sep ∉ s) :
    pysplit sep m s = [s] := by
  cases m with
  | zero => rfl
  | succ m => rw [pysplit, (splitFirst_eq_none_iff sep s).mpr h]

lemma pysplit_ne_nil (sep : Char) (m : Nat) (s : List Char) :
    pysplit sep m s ≠ [] := by
  cases m with
  | zero => simp [pysplit]
  | succ m =>
    rw [pysplit]
    cases splitFirst sep s with
    | none => simp
    | some p => simp

/-- One cut of `pysplit`: a leading separator-free segment is split off. -/
lemma pysplit_cut (sep : Char) (m : Nat) (pre post : List Char) (h : sep ∉ pre) :
    pysplit sep (m + 1) (pre ++ sep :: post) = pre :: pysplit sep m post := by
  rw [pysplit, splitFirst_append sep pre post h]

lemma pysplit_length (sep : Char) :
    ∀ (m : Nat) (s : List Char), s.count sep ≤ m →
      (pysplit sep m s).length = s.count sep + 1 := by
  intro m
  induction m with
  | zero =>
    intro s hc
    have h0 : s.count sep = 0 := Nat.le_zero.mp hc
    rw [pysplit, h0]
    simp
  | succ m ih =>
    intro s hc
    rw [pysplit]
    cases hsf : splitFirst sep s with
    | none =>
      have : sep ∉ s := (splitFirst_eq_none_iff sep s).mp hsf
      rw [List.count_eq_zero.mpr this]
      simp
    | some p =>
      obtain ⟨hs, hpre⟩ := splitFirst_eq_some sep s p.1 p.2 hsf
      have hcount : s.count sep = p.2.count sep + 1 := by
        rw [hs, List.count_append, List.count_cons]
        simp [List.count_eq_zero.mpr hpre]
      have hrec : (pysplit sep m p.2).length = p.2.count sep + 1 :=
        ih p.2 (by omega)
      simp only [List.length_cons, hrec, hcount]

lemma mem_of_mem_pysplit (sep : Char) :
    ∀ (m : Nat) (s part : List Char), part ∈ pysplit sep m s →
      ∀ c ∈ part, c ∈ s := by
  intro m
  induction m with
  | zero =>
    intro s part hp c hc
    rw [pysplit, List.mem_singleton] at hp
    exact hp ▸ hc
  | succ m ih =>
    intro s part hp c hc
    rw [pysplit] at hp
    cases hsf : splitFirst sep s with
    | none =>
      rw [hsf, List.mem_singleton] at hp
      exact hp ▸ hc
    | some p =>
      rw [hsf, List.mem_cons] at hp
      obtain ⟨hs, _⟩ := splitFirst_eq_some sep s p.1 p.2 hsf
      rcases hp with hp | hp
      · rw [hs, List.mem_append]
        exact Or.inl (hp ▸ hc)
      · rw [hs, List.mem_append, List.mem_cons]
        exact Or.inr (Or.inr (ih p.2 part hp c hc))

lemma joinSep_count_eq (c : Char) :
    ∀ parts : List (List Char), parts ≠ [] → (∀ p ∈ parts, c ∉ p) →
      (joinSep c parts).count c = parts.length - 1 := by
  intro parts
  induction parts with
  | nil => intro h; exact absurd rfl h
  | cons p rest ih =>
    intro _ hfree
    cases rest with
    | nil =>
      simp only [joinSep, List.length_cons, List.length_nil]
      exact List.count_eq_zero.mpr (hfree p (List.mem_singleton.mpr rfl))
    | cons q rest' =>
      have hp : c ∉ p := hfree p (List.mem_cons_self p _)
      have hrest : ∀ r ∈ q :: rest', c ∉ r := fun r hr =>
        hfree r (List.mem_cons_of_mem p hr)
      have hrec := ih (by simp) hrest
      simp only [joinSep, List.count_append, List.count_cons_self,
        List.count_eq_zero.mpr hp, hrec, List.length_cons]
      omega

/-! ### Claim theorems about label splitting -/

/-- **C7.** A `function_id` of shape `<bench>-<distr>-<hash>` (no dash inside the
first two fields) splits under `split("-", 2)` into exactly those three fields,
any dashes inside the hash field preserved intact. -/
theorem function_id_split (bench distr hashname : List Char)
    (hb : '-' ∉ bench) (hd : '-' ∉ distr) :
    pysplit '-' 2 (bench ++ '-' :: (distr ++ '-' :: hashname)) =
      [bench, distr, hashname] := by
  have h2 : pysplit '-' 2 (bench ++ '-' :: (distr ++ '-' :: hashname)) =
      bench :: pysplit '-' 1 (distr ++ '-' :: hashname) :=
    pysplit_cut '-' 1 bench _ hb
  have h1 : pysplit '-' 1 (distr ++ '-' :: hashname) =
      distr :: pysplit '-' 0 hashname :=
    pysplit_cut '-' 0 distr _ hd
  rw [h2, h1]
  rfl

/-- Witness for `function_id_split` on `"hashonly-u64-foldhash-fast"`: the
internal dash of the hash name survives. -/
theorem function_id_split_witness :
    pysplit '-' 2 ("hashonly".data ++ '-' :: ("u64".data ++ '-' :: "foldhash-fast".data)) =
      ["hashonly".data, "u64".data, "foldhash-fast".data] :=
  function_id_split "hashonly".data "u64".data "foldhash-fast".data
    (by decide) (by decide)

/-- **C10.** A `function_id` with fewer than two dashes is not rejected: the split
yields fewer than three fields, and the emitted row has
`count('-') + 2 < 4` comma-separated fields, breaking the
`bench,distr,hash,ns` header contract. -/
theorem short_function_id_row (name ns : List Char)
    (hdash : name.count '-' < 2) (hn : ',' ∉ name) (hns : ',' ∉ ns) :
    (pysplit '-' 2 name).length = name.count '-' + 1 ∧
    commaFields (emitLine name ns) = name.count '-' + 2 ∧
    commaFields (emitLine name ns) < 4 := by
  have hlen : (pysplit '-' 2 name).length = name.count '-' + 1 :=
    pysplit_length '-' 2 name (by omega)
  have hfree : ∀ p ∈ pysplit '-' 2 name, ',' ∉ p := by
    intro p hp hc
    exact hn (mem_of_mem_pysplit '-' 2 name p hp ',' hc)
  have hjoin : (joinSep ',' (pysplit '-' 2 name)).count ',' = name.count '-' := by
    rw [joinSep_count_eq ',' _ (pysplit_ne_nil '-' 2 name) hfree, hlen]
    omega
  have hrow : (emitLine name ns).count ',' = name.count '-' + 1 := by
    rw [emitLine, List.count_append, hjoin, List.count_cons,
      List.count_eq_zero.mpr hns]
    simp
  refine ⟨hlen, ?_, ?_⟩
  · rw [commaFields, hrow]
  · rw [commaFields, hrow]
    omega

/-- Witness for `short_function_id_row` on the dash-free name `"oops"`. -/
theorem short_function_id_row_witness :
    (pysplit '-' 2 "oops".data).length = ("oops".data).count '-' + 1 ∧
    commaFields (emitLine "oops".data "5".data) = ("oops".data).count '-' + 2 ∧
    commaFields (emitLine "oops".data "5".data) < 4 :=
  short_function_id_row "oops".data "5".data (by decide) (by decide) (by decide)

/-! ### Claim theorems about the Aggregator -/

/-- **C6.** A `setbuild` record's `ns` is divided by `SET_BUILD_FACTOR`,
`10 × MAP_SIZE = 10000`; every other bench kind passes through unscaled. -/
theorem setbuild_rescale (b : String) (ns : ℚ) (hb : b ≠ "setbuild") :
    rescale_ns "setbuild" ns = ns / (10 * (MAP_SIZE : ℚ)) ∧
    rescale_ns "setbuild" ns = ns / 10000 ∧
    rescale_ns b ns = ns := by
  have hfac : ((SET_BUILD_FACTOR : ℕ) : ℚ) = 10000 := by
    norm_num [SET_BUILD_FACTOR, MAP_SIZE]
  refine ⟨?_, ?_, ?_⟩
  · rw [rescale_ns, if_pos rfl, hfac]
    norm_num [MAP_SIZE]
  · rw [rescale_ns, if_pos rfl, hfac]
  · rw [rescale_ns, if_neg hb, div_one]

/-- Witness for `setbuild_rescale` at `bench = "hashonly"`, `ns = 5`. -/
theorem setbuild_rescale_witness :
    rescale_ns "setbuild" 5 = 5 / (10 * (MAP_SIZE : ℚ)) ∧
    rescale_ns "setbuild" 5 = 5 / 10000 ∧
    rescale_ns "hashonly" 5 = 5 :=
  setbuild_rescale "hashonly" 5 (by decide)

/-- **C2 (code evaluation).** A record whose hash label is not in `hash_order`
(here `"murmur3"`) vanishes from the report: the inner joins drop it and the
pipeline, a total function with no warning or error channel, returns the empty
table, while the same record with a known hash is kept. -/
theorem unknown_hash_row_dropped :
    reportRows [⟨"hashonly", "u32", "murmur3", 5⟩] = [] ∧
    reportRows [⟨"hashonly", "u32", "siphash", 5⟩] =
      [⟨"hashonly", "u32", "siphash", 5⟩] := by
  constructor <;>
    simp [reportRows, joinOrders, normalize, name_repl, rescale_ns, distr_order,
      bench_order, hash_order, List.insertionSort]

/-- **C8.** Two records sharing the same `(distr, bench, hash)` key make the
pivot fail: no pivoted table is produced at all, so the duplicate is neither
silently overwritten nor summed. -/
theorem pivot_rejects_duplicate_key (l₁ l₂ l₃ : List Row) (r₁ r₂ : Row)
    (hd : r₁.distr = r₂.distr) (hb : r₁.bench = r₂.bench) (hh : r₁.hash = r₂.hash) :
    pivot (l₁ ++ r₁ :: l₂ ++ r₂ :: l₃) = none ∧
    ∀ t, pivot (l₁ ++ r₁ :: l₂ ++ r₂ :: l₃) ≠ some t := by
  have hnd : ¬ (pivotKeys (l₁ ++ r₁ :: l₂ ++ r₂ :: l₃)).Nodup := by
    intro hnodup
    rw [pivotKeys, List.map_append] at hnodup
    exact List.disjoint_of_nodup_append hnodup
      (List.mem_map_of_mem _ (List.mem_append_right _ (List.mem_cons_self _ _)))
      (by
        rw [hd, hb, hh]
        exact List.mem_map_of_mem _ (List.mem_cons_self _ _))
  refine ⟨by rw [pivot, if_neg hnd], ?_⟩
  intro t ht
  rw [pivot, if_neg hnd] at ht
  exact Option.noConfusion ht

/-- Witness for `pivot_rejects_duplicate_key`: the same `(u32, hashonly, ahash)`
configuration recorded twice with different latencies. -/
theorem pivot_rejects_duplicate_key_witness :
    pivot ([] ++ ⟨"hashonly", "u32", "ahash", 1⟩ :: [] ++
        ⟨"hashonly", "u32", "ahash", 2⟩ :: []) = none ∧
    ∀ t, pivot ([] ++ ⟨"hashonly", "u32", "ahash", 1⟩ :: [] ++
        ⟨"hashonly", "u32", "ahash", 2⟩ :: []) ≠ some t :=
  pivot_rejects_duplicate_key [] [] [] _ _ rfl rfl rfl

/-! ### Rank statistics -/

lemma countP_add_countP_le_length {α : Type} (p q : α → Bool)
    (hpq : ∀ a, p a = true → q a = true → False) :
    ∀ l : List α, l.countP p + l.countP q ≤ l.length := by
  intro l
  induction l with
  | nil => simp
  | cons x t ih =>
    simp only [List.countP_cons, List.length_cons]
    by_cases hp : p x = true
    · have hq : ¬ q x = true := fun hq => hpq x hp hq
      simp only [if_pos hp, if_neg hq]
      omega
    · by_cases hq : q x = true
      · simp only [if_neg hp, if_pos hq]
        omega
      · simp only [if_neg hp, if_neg hq]
        omega

lemma rankAvg_bounds (v : ℚ) (xs : List ℚ) (hv : v ∈ xs) :
    1 ≤ rankAvg v xs ∧ rankAvg v xs ≤ (xs.length : ℚ) := by
  have heq1 : 0 < xs.countP (fun x => decide (x = v)) :=
    List.countP_pos_iff.mpr ⟨v, hv, by simp⟩
  have hsum : xs.countP (fun x => decide (x < v)) +
      xs.countP (fun x => decide (x = v)) ≤ xs.length :=
    countP_add_countP_le_length _ _
      (fun a ha hb => absurd (of_decide_eq_true hb) (ne_of_lt (of_decide_eq_true ha))) xs
  have h1 : (1 : ℚ) ≤ (xs.countP (fun x => decide (x = v)) : ℚ) := by
    exact_mod_cast heq1
  have h2 : ((xs.countP (fun x => decide (x < v)) : ℚ)) +
      (xs.countP (fun x => decide (x = v)) : ℚ) ≤ (xs.length : ℚ) := by
    exact_mod_cast hsum
  have h0 : (0 : ℚ) ≤ (xs.countP (fun x => decide (x < v)) : ℚ) := Nat.cast_nonneg _
  constructor
  · rw [rankAvg]
    linarith
  · rw [rankAvg]
    linarith

lemma rankAvg_eq_one (v : ℚ) (xs : List ℚ)
    (h0 : xs.countP (fun x => decide (x < v)) = 0)
    (h1 : xs.countP (fun x => decide (x = v)) = 1) :
    rankAvg v xs = 1 := by
  rw [rankAvg, h0, h1]
  norm_num

lemma countP_eq_one_of_unique {α : Type} (P : α → Bool) :
    ∀ l : List α, l.Nodup → ∀ a, a ∈ l → P a = true →
      (∀ b ∈ l, P b = true → b = a) → l.countP P = 1 := by
  intro l
  induction l with
  | nil =>
    intro _ a ha
    exact absurd ha (List.not_mem_nil a)
  | cons x t ih =>
    intro hnd a ha hPa huniq
    rcases List.mem_cons.mp ha with hax | hat
    · subst hax
      have ht0 : t.countP P = 0 := by
        apply List.countP_eq_zero.mpr
        intro b hb hPb
        have hba := huniq b (List.mem_cons_of_mem a hb) hPb
        exact (List.nodup_cons.mp hnd).1 (hba ▸ hb)
      simp [List.countP_cons, ht0, hPa]
    · have hx : ¬ P x = true := by
        intro hPx
        have hxa := huniq x (List.mem_cons_self x t) hPx
        exact (List.nodup_cons.mp hnd).1 (hxa ▸ hat)
      have hrec := ih (List.nodup_cons.mp hnd).2 a hat hPa
        (fun b hb hPb => huniq b (List.mem_cons_of_mem x hb) hPb)
      simp [List.countP_cons, hx, hrec]

lemma le_mean_of_forall_le (l : List ℚ) (a : ℚ) (hne : l ≠ [])
    (ha : ∀ x ∈ l, a ≤ x) : a ≤ l.sum / (l.length : ℚ) := by
  have hlen : 0 < (l.length : ℚ) := by
    have := List.length_pos.mpr hne
    exact_mod_cast this
  rw [le_div_iff₀ hlen]
  have hs := List.card_nsmul_le_sum l a ha
  rw [nsmul_eq_mul] at hs
  linarith

lemma mean_le_of_forall_le (l : List ℚ) (b : ℚ) (hne : l ≠ [])
    (hb : ∀ x ∈ l, x ≤ b) : l.sum / (l.length : ℚ) ≤ b := by
  have hlen : 0 < (l.length : ℚ) := by
    have := List.length_pos.mpr hne
    exact_mod_cast this
  rw [div_le_iff₀ hlen]
  have hs := List.sum_le_card_nsmul l b hb
  rw [nsmul_eq_mul] at hs
  linarith

lemma mem_hashRows_iff (df : List Row) (h : String) (s : Row) :
    s ∈ hashRows df h ↔ s ∈ df ∧ s.hash = h := by
  simp [hashRows]

lemma mem_windowOf_iff (df : List Row) (r s : Row) :
    s ∈ windowOf df r ↔ s ∈ df ∧ s.distr = r.distr ∧ s.bench = r.bench := by
  simp [windowOf]

/-- **C4.** With per-window distinct hash labels drawn from `H`, a hash `h`
present in every `(distr, bench)` window has `avg_rank` within `[1, |H|]`, and
if it is strictly fastest in every window its `avg_rank` is exactly `1`. -/
theorem avg_rank_spec (df : List Row) (h : String) (H : List String)
    (hH : ∀ r ∈ df, r.hash ∈ H)
    (hwin : ∀ r ∈ df, ((windowOf df r).map Row.hash).Nodup)
    (hne : df ≠ [])
    (hpres : ∀ r ∈ df, ∃ s ∈ df, s.distr = r.distr ∧ s.bench = r.bench ∧ s.hash = h) :
    (1 ≤ avg_rank df h ∧ avg_rank df h ≤ (H.length : ℚ)) ∧
    ((∀ s ∈ df, s.hash = h → ∀ r ∈ df, r.distr = s.distr → r.bench = s.bench →
        r.hash ≠ h → s.ns < r.ns) →
      avg_rank df h = 1) := by
  have hself_window : ∀ s ∈ df, s ∈ windowOf df s := fun s hs =>
    (mem_windowOf_iff df s s).mpr ⟨hs, rfl, rfl⟩
  have hrne : hashRows df h ≠ [] := by
    obtain ⟨r0, hr0⟩ := List.exists_mem_of_ne_nil df hne
    obtain ⟨s, hsdf, -, -, hsh⟩ := hpres r0 hr0
    exact List.ne_nil_of_mem ((mem_hashRows_iff df h s).mpr ⟨hsdf, hsh⟩)
  have hmapne : (hashRows df h).map (rankOver df) ≠ [] := by
    simpa using hrne
  have hlen_eq : ((hashRows df h).map (rankOver df)).length = (hashRows df h).length :=
    List.length_map _ _
  have hbounds : ∀ x ∈ (hashRows df h).map (rankOver df),
      1 ≤ x ∧ x ≤ (H.length : ℚ) := by
    intro x hx
    obtain ⟨s, hs, rfl⟩ := List.mem_map.mp hx
    obtain ⟨hsdf, hsh⟩ := (mem_hashRows_iff df h s).mp hs
    have hns : s.ns ∈ (windowOf df s).map Row.ns :=
      List.mem_map_of_mem _ (hself_window s hsdf)
    obtain ⟨hlo, hhi⟩ := rankAvg_bounds s.ns _ hns
    refine ⟨hlo, le_trans hhi ?_⟩
    have hsubset : ((windowOf df s).map Row.hash) ⊆ H := by
      intro y hy
      obtain ⟨r, hr, rfl⟩ := List.mem_map.mp hy
      exact hH r ((mem_windowOf_iff df s r).mp hr).1
    have hlen : ((windowOf df s).map Row.hash).length ≤ H.length :=
      ((hwin s hsdf).subperm hsubset).length_le
    rw [List.length_map] at hlen
    have : ((windowOf df s).map Row.ns).length ≤ H.length := by
      rw [List.length_map]
      exact hlen
    exact_mod_cast this
  refine ⟨⟨?_, ?_⟩, ?_⟩
  · rw [avg_rank, ← hlen_eq]
    exact le_mean_of_forall_le _ 1 hmapne (fun x hx => (hbounds x hx).1)
  · rw [avg_rank, ← hlen_eq]
    exact mean_le_of_forall_le _ _ hmapne (fun x hx => (hbounds x hx).2)
  · intro hfast
    have hall1 : ∀ x ∈ (hashRows df h).map (rankOver df), x = 1 := by
      intro x hx
      obtain ⟨s, hs, rfl⟩ := List.mem_map.mp hx
      obtain ⟨hsdf, hsh⟩ := (mem_hashRows_iff df h s).mp hs
      have hwnd := hwin s hsdf
      have hinj := List.inj_on_of_nodup_map hwnd
      have hc0 : ((windowOf df s).map Row.ns).countP
          (fun x => decide (x < s.ns)) = 0 := by
        apply List.countP_eq_zero.mpr
        intro y hy
        obtain ⟨r, hr, rfl⟩ := List.mem_map.mp hy
        obtain ⟨hrdf, hrd, hrb⟩ := (mem_windowOf_iff df s r).mp hr
        simp only [decide_eq_true_eq]
        by_cases hrh : r.hash = h
        · have hrs : r = s := hinj hr (hself_window s hsdf) (by rw [hrh, hsh])
          rw [hrs]
          exact lt_irrefl s.ns
        · exact not_lt.mpr (le_of_lt (hfast s hsdf hsh r hrdf hrd hrb hrh))
      have hc1 : ((windowOf df s).map Row.ns).countP
          (fun x => decide (x = s.ns)) = 1 := by
        rw [List.countP_map]
        apply countP_eq_one_of_unique _ _ (hwnd.of_map) s (hself_window s hsdf)
          (by simp)
        intro r hr hPr
        have hrns : r.ns = s.ns := by simpa using hPr
        obtain ⟨hrdf, hrd, hrb⟩ := (mem_windowOf_iff df s r).mp hr
        by_cases hrh : r.hash = h
        · exact hinj hr (hself_window s hsdf) (by rw [hrh, hsh])
        · exact absurd hrns (ne_of_gt (hfast s hsdf hsh r hrdf hrd hrb hrh))
      rw [rankOver]
      exact rankAvg_eq_one s.ns _ hc0 hc1
    rw [avg_rank, ← hlen_eq, List.sum_eq_card_nsmul _ 1 hall1, nsmul_eq_mul, mul_one]
    have hlpos : (0 : ℚ) < (((hashRows df h).map (rankOver df)).length : ℚ) := by
      have := List.length_pos.mpr hmapne
      exact_mod_cast this
    exact div_self (ne_of_gt hlpos)

/-- Witness for `avg_rank_spec` on a one-window, two-hash dataframe. -/
theorem avg_rank_spec_witness :
    (1 ≤ avg_rank dfPair "ahash" ∧
      avg_rank dfPair "ahash" ≤ (((["ahash", "siphash"] : List String)).length : ℚ)) ∧
    ((∀ s ∈ dfPair, s.hash = "ahash" → ∀ r ∈ dfPair, r.distr = s.distr →
        r.bench = s.bench → r.hash ≠ "ahash" → s.ns < r.ns) →
      avg_rank dfPair "ahash" = 1) :=
  avg_rank_spec dfPair "ahash" ["ahash", "siphash"]
    (by decide) (by decide) (by decide) (by decide)

/-! ### Geometric mean -/

lemma log_list_prod (xs : List ℝ) (h : ∀ x ∈ xs, 0 < x) :
    Real.log xs.prod = (xs.map Real.log).sum := by
  induction xs with
  | nil => simp
  | cons x t ih =>
    have hx : 0 < x := h x (List.mem_cons_self x t)
    have ht : ∀ y ∈ t, 0 < y := fun y hy => h y (List.mem_cons_of_mem x hy)
    have hprod : 0 < t.prod := List.prod_pos ht
    simp [List.prod_cons, Real.log_mul (ne_of_gt hx) (ne_of_gt hprod), ih ht]

/-- **C5.** The per-hash summary `exp (mean (log ns))` equals the geometric mean
`(∏ ns) ^ (1/k)`, is invariant under reordering of the aggregated values, and
equals `v` on a constant series `v, …, v` of length `k ≥ 1`. -/
theorem geometric_mean_spec (xs ys : List ℝ) (v : ℝ) (k : ℕ)
    (hpos : ∀ x ∈ xs, 0 < x) (hperm : xs.Perm ys) (hv : 0 < v) (hk : k ≠ 0) :
    geometric_mean xs = xs.prod ^ ((xs.length : ℝ))⁻¹ ∧
    geometric_mean xs = geometric_mean ys ∧
    geometric_mean (List.replicate k v) = v := by
  refine ⟨?_, ?_, ?_⟩
  · have hprod : 0 < xs.prod := List.prod_pos hpos
    rw [geometric_mean, Real.rpow_def_of_pos hprod, log_list_prod xs hpos,
      List.length_map, div_eq_mul_inv]
  · rw [geometric_mean, geometric_mean, (hperm.map Real.log).sum_eq,
      (hperm.map Real.log).length_eq]
  · have hkR : (k : ℝ) ≠ 0 := Nat.cast_ne_zero.mpr hk
    rw [geometric_mean, List.map_replicate, List.sum_replicate, nsmul_eq_mul,
      List.length_replicate, mul_div_cancel_left₀ _ hkR, Real.exp_log hv]

/-- Witness for `geometric_mean_spec` at the singleton list `[2]`. -/
theorem geometric_mean_spec_witness :
    geometric_mean [(2 : ℝ)] = ([(2 : ℝ)]).prod ^ ((([(2 : ℝ)]).length : ℝ))⁻¹ ∧
    geometric_mean [(2 : ℝ)] = geometric_mean [(2 : ℝ)] ∧
    geometric_mean (List.replicate 1 (2 : ℝ)) = 2 :=
  geometric_mean_spec [2] [2] 2 1 (by norm_num) (List.Perm.refl _)
    (by norm_num) one_ne_zero

end Foldhash
